import Mathlib

/-
Verification development for the streaming dataset health analyzer
(scripts/analyze_volve_dataset_health.py).

Shallow embedding conventions:
* CSV cell values are modelled by `Cell`: a cell is missing (pandas NaN),
  numeric, or non-numeric text.  Floating-point numbers are modelled by ℚ
  (exact arithmetic); Python ints by ℕ/ℤ.
* A dataset is its header plus the list of chunks produced by
  `pd.read_csv(..., chunksize=...)`; each chunk is a list of rows, each row a
  list of cells positionally aligned with the header.
* `pd.to_numeric(series, errors="coerce").dropna()` is `List.filterMap
  Cell.toNum`; `series.isna()` is `Cell.isna` per cell.
* Fallible I/O (a dataset that exists but cannot be read) is modelled with
  `Except`, mirroring the exception flow of `main`.
-/

/-- A single CSV cell as observed by pandas: missing (NaN), numeric, or
non-numeric text. -/
inductive Cell where
  | missing : Cell
  | num : ℚ → Cell
  | str : String → Cell
deriving DecidableEq

/-- `pd.to_numeric(·, errors="coerce")` followed by `dropna`, per cell:
numeric cells survive, missing and non-numeric cells are dropped. -/
def Cell.toNum : Cell → Option ℚ
  | .num q => some q
  | _ => none

/-- `pd.isna` per cell: only genuinely missing cells count as NA. -/
def Cell.isna : Cell → Bool
  | .missing => true
  | _ => false

/-- A data row: cells positionally aligned with the dataset header. -/
abbrev Row := List Cell

/-- A dataset: the CSV header plus the stream of chunks yielded by
`pd.read_csv(path, chunksize=CHUNK_SIZE)`. -/
structure Dataset where
  header : List String
  chunks : List (List Row)
deriving DecidableEq

/-- Constant `DUPLICATE_SAMPLE_ROWS = 200_000` (line 71 of the source). -/
def DUPLICATE_SAMPLE_ROWS : ℕ := 200000

/-- Characters kept by the normalization regex `[^a-z0-9]+` after
lower-casing: ASCII lowercase letters and digits. -/
def isKeepChar (c : Char) : Bool :=
  ( 'a' ≤ c && c ≤ 'z') || ( '0' ≤ c && c ≤ '9')

/-- Split a character list into maximal runs of kept characters (the
accumulator holds the current run, reversed). -/
def splitRuns : List Char → List Char → List (List Char)
  | [], cur => if cur.isEmpty then [] else [cur.reverse]
  | c :: cs, cur =>
    if isKeepChar c then splitRuns cs (c :: cur)
    else if cur.isEmpty then splitRuns cs [] else cur.reverse :: splitRuns cs []

/-- `normalize_name` (source lines 195-213):
`re.sub(r"[^a-z0-9]+", " ", str(value).lower()).strip()` — lower-case,
collapse every run of non-alphanumerics to one space, trim.  Equivalently:
the maximal alphanumeric runs joined by single spaces. -/
def normalize_name (s : String) : String :=
  String.mk (List.intercalate [ ' ' ] (splitRuns (s.data.map Char.toLower) []))

/-- Python's substring test `needle in haystack` on lists of characters. -/
def subList (needle : List Char) : List Char → Bool
  | [] => needle.isEmpty
  | y :: ys => needle.isPrefixOf (y :: ys) || subList needle ys

/-- Python's substring test `needle in haystack` for strings. -/
def containsSub (needle haystack : String) : Bool :=
  subList needle.data haystack.data

/-- The dict comprehension `{normalize_name(col): col for col in columns}`
(source line 235) as an association list: keys in order of first occurrence,
value = the last column mapping to that key (Python dict assignment
overwrites the value but keeps the key's position). -/
def buildNormMap (columns : List String) : List (String × String) :=
  columns.foldl
    (fun acc col =>
      let key := normalize_name col
      if acc.any (fun p => p.1 = key) then
        acc.map (fun p => if p.1 = key then (key, col) else p)
      else acc ++ [(key, col)])
    []

/-- `find_column` (source lines 216-245): exact normalized match over the
candidates in priority order, then substring match (skipping candidates whose
normalization is empty, because of the `if key and key in norm` truthiness
guard), else `None`. -/
def find_column (columns : List String) (candidates : List String) : Option String :=
  let normalized := buildNormMap columns
  match candidates.findSome? (fun cand =>
      (normalized.find? (fun p => p.1 = normalize_name cand)).map (fun p => p.2)) with
  | some col => some col
  | none =>
    candidates.findSome? (fun cand =>
      let key := normalize_name cand
      if key = "" then none
      else (normalized.find? (fun p => containsSub key p.1)).map (fun p => p.2))

/-- The four resolved standard columns (source line 280). -/
structure StandardCols where
  depth : Option String
  rop : Option String
  vibration : Option String
  time : Option String
deriving DecidableEq

/-- `detect_standard_columns` (source lines 248-280) with its literal
candidate lists. -/
def detect_standard_columns (columns : List String) : StandardCols where
  depth := find_column columns
    [ "BIT_DEPTH", "BIT_DEPTH_M", "BIT MEASURED DEPTH", "DEPTH", "MD", "HOLE DEPTH"]
  rop := find_column columns
    [ "ROP", "ROP_MH", "ROP_M/H", "RATE OF PENETRATION", "TIME AVERAGED ROP"]
  vibration := find_column columns
    [ "VIBRATION_0_5", "VIBRATION", "VIBRATION_RAW", "LATERAL VIBRATION", "VIBRATION_PROXY"]
  time := find_column columns [ "TIME", "TIMESTAMP", "DATETIME", "DATE TIME"]

/-- `expect_vibration_range` (source lines 283-306).  Note the Python
truthiness test `if not column_name` treats both `None` and the empty string
as unresolved. -/
def expect_vibration_range (column_name : Option String) : Option (ℚ × ℚ) :=
  match column_name with
  | none => none
  | some s =>
    if s = "" then none
    else
      let normalized := normalize_name s
      if containsSub "vibration 0 5" normalized ||
          (containsSub "vibration" normalized && !containsSub "raw" normalized) then
        some (0, 5)
      else none

/-- Mergeable running statistics, `RunningStat` (source lines 76-127).
`count == 0` is the fresh state; `min_value`/`max_value` are `None` until the
first numeric observation. -/
structure RunningStat where
  count : ℕ := 0
  mean : ℚ := 0
  m2 : ℚ := 0
  min_value : Option ℚ := none
  max_value : Option ℚ := none
deriving DecidableEq

/-- The freshly constructed `RunningStat()`. -/
def RunningStat.init : RunningStat := {}

/-- `pd.Series.mean()` of a nonempty numeric series (junk value 0 on []). -/
def pmean (l : List ℚ) : ℚ := l.sum / l.length

/-- `pd.Series.var(ddof=0)` — population variance — of a nonempty numeric
series (junk value 0 on []). -/
def pvar (l : List ℚ) : ℚ :=
  (l.map (fun x => (x - pmean l) ^ 2)).sum / l.length

/-- `pd.Series.min()` of a nonempty numeric series (junk value 0 on []). -/
def listMin : List ℚ → ℚ
  | [] => 0
  | x :: xs => xs.foldl min x

/-- `pd.Series.max()` of a nonempty numeric series (junk value 0 on []). -/
def listMax : List ℚ → ℚ
  | [] => 0
  | x :: xs => xs.foldl max x

/-- `RunningStat.update` (source lines 84-127).  The series is coerced with
`pd.to_numeric(errors="coerce").dropna()` (= `filterMap Cell.toNum`); an
empty coerced series leaves the state untouched.  Otherwise the chunk
statistics `(n₂, mean₂, M2₂ = var₂·n₂)` are merged by Chan's parallel
combination, and min/max by plain comparison. -/
def RunningStat.update (s : RunningStat) (series : List Cell) : RunningStat :=
  let values := series.filterMap Cell.toNum
  if values = [] then s
  else
    let chunk_count : ℕ := values.length
    let chunk_mean : ℚ := pmean values
    let chunk_m2 : ℚ := pvar values * chunk_count
    let s1 :=
      if s.count = 0 then
        { s with count := chunk_count, mean := chunk_mean, m2 := chunk_m2 }
      else
        let delta := chunk_mean - s.mean
        let total := s.count + chunk_count
        { s with
          mean := s.mean + delta * chunk_count / total,
          m2 := s.m2 + chunk_m2 + delta * delta * s.count * chunk_count / total,
          count := total }
    let chunk_min := listMin values
    let chunk_max := listMax values
    { s1 with
      min_value :=
        match s.min_value with
        | none => some chunk_min
        | some m => if chunk_min < m then some chunk_min else some m,
      max_value :=
        match s.max_value with
        | none => some chunk_max
        | some m => if m < chunk_max then some chunk_max else some m }

/-- Index of a column name in the header (`header.length` when absent);
pandas column access `chunk[col]` resolves by name. -/
def colIdx (header : List String) (col : String) : ℕ :=
  header.findIdx (fun h => h = col)

/-- The series `chunk[col]`: the cells of one column across a chunk's rows. -/
def colCells (header : List String) (rows : List Row) (col : String) : List Cell :=
  rows.map (fun r => r.getD (colIdx header col) Cell.missing)

/-- `row_count` accumulated over the chunk loop (source line 382). -/
def rowCount (ds : Dataset) : ℕ :=
  ds.chunks.foldl (fun acc c => acc + c.length) 0

/-- `fully_empty_rows` accumulated over the chunk loop (source line 383):
rows on which every column is NA. -/
def fullyEmptyRows (ds : Dataset) : ℕ :=
  ds.chunks.foldl (fun acc c => acc + c.countP (fun r => r.all Cell.isna)) 0

/-- `missing_counts[col]` accumulated over the chunk loop (source line 386). -/
def missingCount (ds : Dataset) (col : String) : ℕ :=
  ds.chunks.foldl (fun acc c => acc + (colCells ds.header c col).countP Cell.isna) 0

/-- `numeric_stats[col]` after the chunk loop (source lines 369, 387). -/
def statFor (ds : Dataset) (col : String) : RunningStat :=
  ds.chunks.foldl (fun s c => s.update (colCells ds.header c col)) RunningStat.init

/-- `depth_negative` after the chunk loop (source lines 389-392): counts
parsed depth values `< 0` (NaN comparisons are false), guarded by the
truthiness of the resolved depth column. -/
def depthNegativeOf (ds : Dataset) : ℕ :=
  match (detect_standard_columns ds.header).depth with
  | none => 0
  | some d =>
    if d = "" then 0
    else ds.chunks.foldl
      (fun acc c =>
        acc + ((colCells ds.header c d).filterMap Cell.toNum).countP (fun q => q < 0)) 0

/-- `vibration_out_of_range` after the chunk loop (source lines 394-398):
counts parsed vibration values outside the expected range, guarded by the
truthiness of the resolved vibration column and of the range. -/
def vibrationOutOfRangeOf (ds : Dataset) : ℕ :=
  match (detect_standard_columns ds.header).vibration,
      expect_vibration_range (detect_standard_columns ds.header).vibration with
  | some v, some (lower, upper) =>
    if v = "" then 0
    else ds.chunks.foldl
      (fun acc c =>
        acc + ((colCells ds.header c v).filterMap Cell.toNum).countP
          (fun q => q < lower || upper < q)) 0
  | _, _ => 0

/-- The duplicate-sampling fold (source lines 400-403): from state
`(frames-so-far, sample_remaining)`, each chunk contributes its first
`min(sample_remaining, len(chunk))` rows. -/
def sampleAccum (cap : ℕ) (chunks : List (List Row)) : List Row × ℕ :=
  chunks.foldl
    (fun acc c =>
      let take := min acc.2 c.length
      (acc.1 ++ c.take take, acc.2 - take))
    ([], cap)

/-- `pd.concat(sample_frames)` — the retained sample rows in arrival order. -/
def dupSampleRows (ds : Dataset) : List Row :=
  (sampleAccum DUPLICATE_SAMPLE_ROWS ds.chunks).1

/-- `DataFrame.duplicated().sum()` (source line 440): the number of rows
equal to some earlier row, computed left-to-right against the set of rows
already seen. -/
def dupCountFold (rows : List Row) : ℕ :=
  (rows.foldl
    (fun (p : List Row × ℕ) r => (r :: p.1, if r ∈ p.1 then p.2 + 1 else p.2))
    ([], 0)).2

/-- The `duplicate_sample` sub-record (source lines 432-446). -/
structure DupSample where
  method : String
  sample_rows : ℕ
  duplicate_rows : ℕ
  duplicate_rate : ℚ
deriving DecidableEq

/-- `duplicate_sample` (source lines 432-446).  `sample_frames` is nonempty
exactly when at least one chunk was iterated (the first iteration always
appends a frame because `sample_remaining` starts at 200 000 > 0). -/
def duplicateSampleOf (ds : Dataset) : DupSample :=
  if ds.chunks = [] then ⟨ "sampled", 0, 0, 0⟩
  else
    let sample_df := dupSampleRows ds
    let duplicate_rows := dupCountFold sample_df
    ⟨ "first_rows", sample_df.length, duplicate_rows,
      if sample_df.length = 0 then 0 else (duplicate_rows : ℚ) / sample_df.length⟩

/-- One column's missingness entry (source lines 408-418). -/
structure MissInfo where
  missing : ℕ
  missing_rate : ℚ
  non_null : ℤ
  non_null_rate : ℚ
deriving DecidableEq

/-- The per-column missingness computation (source lines 409-418):
`non_null = row_count - missing`, rates guarded by `if row_count else 0.0`. -/
def missingInfo (ds : Dataset) (col : String) : MissInfo :=
  let rc := rowCount ds
  let missing := missingCount ds col
  { missing := missing
    missing_rate := if rc = 0 then 0 else (missing : ℚ) / rc
    non_null := (rc : ℤ) - missing
    non_null_rate := if rc = 0 then 0 else (((rc : ℤ) - missing : ℤ) : ℚ) / rc }

/-- The `missingness` dict (source lines 408-418), keyed in header order. -/
def missingnessOf (ds : Dataset) : List (String × MissInfo) :=
  ds.header.map (fun col => (col, missingInfo ds col))

/-- One column's numeric summary (source lines 424-430).  The reported `std`
is `sqrt(m2/count)` (0.0 when `count ≤ 1`); its square `std_sq` is stored so
the record stays in exact arithmetic. -/
structure NumSummary where
  count : ℕ
  min_val : Option ℚ
  max_val : Option ℚ
  mean : ℚ
  std_sq : ℚ
deriving DecidableEq

/-- `numeric_summary` (source lines 420-430): columns whose accumulator never
saw a numeric value are omitted. -/
def numericSummaryOf (ds : Dataset) : List (String × NumSummary) :=
  ds.header.filterMap (fun col =>
    let st := statFor ds col
    if st.count = 0 then none
    else some (col,
      { count := st.count, min_val := st.min_value, max_val := st.max_value,
        mean := st.mean,
        std_sq := if st.count ≤ 1 then 0 else st.m2 / st.count }))

/-- The rate lookups feeding the fit score (source lines 472-475):
`missingness.get(col, {}).get("non_null_rate", 0.0) if col else 0.0`,
where `if col` is Python truthiness (None and "" are falsy). -/
def lookupRate (ds : Dataset) (col : Option String) : ℚ :=
  match col with
  | none => 0
  | some c =>
    if c = "" then 0
    else ((((missingnessOf ds).find? (fun p => p.1 = c)).map
      (fun p => p.2.non_null_rate)).getD 0)

/-- `fully_empty_pct` (source line 470). -/
def fullyEmptyPct (ds : Dataset) : ℚ :=
  if rowCount ds = 0 then 0 else (fullyEmptyRows ds : ℚ) / rowCount ds

/-- The fit score before clamping (source lines 477-510): the four coverage
groups in their fixed order, then the two deductions, mirroring the
sequential `fit_score +=`/`-=` statements.  `col and rate > t` uses Python
truthiness on the resolved column name. -/
def fitScoreRaw (ds : Dataset) : ℤ :=
  let st := detect_standard_columns ds.header
  let depth_rate := lookupRate ds st.depth
  let rop_rate := lookupRate ds st.rop
  let vib_rate := lookupRate ds st.vibration
  let time_rate := lookupRate ds st.time
  let dtruthy : Bool := match st.depth with | none => false | some c => c ≠ ""
  let rtruthy : Bool := match st.rop with | none => false | some c => c ≠ ""
  let vtruthy : Bool := match st.vibration with | none => false | some c => c ≠ ""
  let ttruthy : Bool := match st.time with | none => false | some c => c ≠ ""
  (if dtruthy ∧ depth_rate > (9 : ℚ) / 10 then 30
   else if dtruthy ∧ depth_rate > (7 : ℚ) / 10 then 15 else 0)
  + (if rtruthy ∧ rop_rate > (7 : ℚ) / 10 then 20
     else if rtruthy ∧ rop_rate > (4 : ℚ) / 10 then 10 else 0)
  + (if vtruthy ∧ vib_rate > (7 : ℚ) / 10 then 20
     else if vtruthy ∧ vib_rate > (4 : ℚ) / 10 then 10 else 0)
  + (if ttruthy ∧ time_rate > (5 : ℚ) / 10 then 10 else 0)
  - (if fullyEmptyPct ds > (1 : ℚ) / 10 then 10 else 0)
  - (if 0 < depthNegativeOf ds then 10 else 0)

/-- `fit_score = max(0, min(100, fit_score))` (source line 512). -/
def fitScoreOf (ds : Dataset) : ℤ := max 0 (min 100 (fitScoreRaw ds))

/-- The per-dataset health record (source lines 514-555).  Fields that are
pure I/O glue (path, size on disk, score-note strings, unit-flag strings and
the duplicated min/max/mean/std of the depth/rop/vibration sub-records,
which are copies of `numeric_stats` entries) are outside the claims and
omitted. -/
structure HealthRecord where
  rows : ℕ
  cols : ℕ
  columns : List String
  missingness : List (String × MissInfo)
  numeric_stats : List (String × NumSummary)
  fully_empty_rows : ℕ
  fully_empty_row_pct : ℚ
  duplicate_sample : DupSample
  standard_columns : StandardCols
  depth_negative : ℕ
  vibration_expected_range : Option (ℚ × ℚ)
  vibration_out_of_range : ℕ
  time_non_null_rate : ℚ
  fit_score : ℤ
deriving DecidableEq

/-- `analyze_dataset` (source lines 343-555), assembled from the pieces
above. -/
def analyze_dataset (ds : Dataset) : HealthRecord where
  rows := rowCount ds
  cols := ds.header.length
  columns := ds.header
  missingness := missingnessOf ds
  numeric_stats := numericSummaryOf ds
  fully_empty_rows := fullyEmptyRows ds
  fully_empty_row_pct := fullyEmptyPct ds
  duplicate_sample := duplicateSampleOf ds
  standard_columns := detect_standard_columns ds.header
  depth_negative := depthNegativeOf ds
  vibration_expected_range :=
    expect_vibration_range (detect_standard_columns ds.header).vibration
  vibration_out_of_range := vibrationOutOfRangeOf ds
  time_non_null_rate := lookupRate ds (detect_standard_columns ds.header).time
  fit_score := fitScoreOf ds

/-- A candidate dataset source as `main`/`discover_datasets` see it: the file
is absent (`Path.exists()` false), or it exists but reading/parsing it raises
(pandas `read_csv` failure), or it is readable with the given content. -/
inductive Source where
  | absent : String → Source
  | unreadable : String → Source
  | readable : String → Dataset → Source
deriving DecidableEq

/-- Whether reading this source would raise. -/
def Source.isUnreadable : Source → Bool
  | .unreadable _ => true
  | _ => false

/-- The dataset content of a readable source. -/
def Source.readableOf : Source → Option Dataset
  | .readable _ ds => some ds
  | _ => none

/-- `discover_datasets` (source lines 309-340): nonexistent files are logged
and dropped; existing files are kept whether or not they will read cleanly
(existence is the only check performed). -/
def discoverSources (sources : List Source) : List Source :=
  sources.filter (fun s => match s with | .absent _ => false | _ => true)

/-- Analyzing one discovered source (source line 602): a readable source
yields its health record; a read failure raises, modelled as `Except.error`. -/
def Source.analyze : Source → Except String HealthRecord
  | .readable _ ds => .ok (analyze_dataset ds)
  | .unreadable p => .error ( "read failure: " ++ p)
  | .absent p => .error ( "missing: " ++ p)

/-- The `for path in datasets` loop of `main` (source lines 598-602):
records accumulate in order; the first raised exception propagates (the
`except` clause at lines 613-615 logs and re-raises). -/
def analyzeAll : List Source → Except String (List HealthRecord)
  | [] => .ok []
  | s :: ss =>
    match s.analyze with
    | .error e => .error e
    | .ok r =>
      match analyzeAll ss with
      | .error e => .error e
      | .ok rs => .ok (r :: rs)

/-- `main`'s batch (source lines 585-611): discovery drops nonexistent
files, then every discovered dataset is analyzed and the report collects the
records; a read failure anywhere aborts the whole batch and no report is
produced. -/
def runBatch (sources : List Source) : Except String (List HealthRecord) :=
  analyzeAll (discoverSources sources)

/-
Spec-side reference definitions.  The following are written from the spec's
(amended) words and are compared against the source-derived definitions
above; they are not translations of the source.
-/

/-- The normalized header names in order of first occurrence (the key order
of a Python dict comprehension). -/
def firstOccNorms (columns : List String) : List String :=
  columns.foldl
    (fun acc c =>
      if normalize_name c ∈ acc then acc else acc ++ [normalize_name c])
    []

/-- The last header whose normalized form is `key` (Python dict assignment:
the last writer of a key wins). -/
def lastExact (columns : List String) (key : String) : Option String :=
  columns.reverse.find? (fun c => normalize_name c = key)

/-- Column resolution as the amended claim words it: walk candidates in
priority order and return the header whose normalized form exactly equals
the normalized candidate (the last such header when several headers share
that normalized form); if no exact match, walk candidates again, skip
candidates whose normalized form is empty, and return the resolved header of
the first normalized header form (in order of first occurrence) containing
the candidate as a substring; otherwise unresolved. -/
def findColumnSpec (columns candidates : List String) : Option String :=
  match candidates.findSome? (fun cand => lastExact columns (normalize_name cand)) with
  | some col => some col
  | none =>
    candidates.findSome? (fun cand =>
      let key := normalize_name cand
      if key = "" then none
      else ((firstOccNorms columns).find? (fun nrm => containsSub key nrm)).bind
        (fun nrm => lastExact columns nrm))

/-- The number of retained rows that exactly repeat an earlier retained row,
as the claim words it: positions `i` such that some position `j < i` holds an
equal row. -/
def claimDupCount (rows : List Row) : ℕ :=
  (List.range rows.length).countP
    (fun i => (List.range i).any (fun j => rows.getD j [] = rows.getD i []))

/-- A four-column, one-row dataset on which every standard column resolves
with full coverage. -/
def fullCoverageExample : Dataset :=
  ⟨[ "BIT_DEPTH", "ROP", "VIBRATION_0_5", "TIME"],
    [[[Cell.num 1, Cell.num 1, Cell.num 1, Cell.num 1]]]⟩

/-
Theorems.
-/

/-- A fold whose step fixes every list element leaves the seed unchanged. -/
theorem foldl_fixed {α β : Type} (g : β → α → β) (l : List α) (b : β)
    (h : ∀ x ∈ l, ∀ s, g s x = s) : l.foldl g b = b := by
  induction l generalizing b with
  | nil => rfl
  | cons a l ih =>
    rw [List.foldl_cons, h a (List.mem_cons_self a l)]
    exact ih b fun x hx s => h x (List.mem_cons_of_mem a hx) s

/-- Updating with a series holding no numeric value leaves the state
unchanged. -/
theorem RunningStat.update_no_num (s : RunningStat) (series : List Cell)
    (h : series.filterMap Cell.toNum = []) : s.update series = s := by
  unfold RunningStat.update
  rw [h]
  rfl

/-- The unclamped fit score never exceeds 80: the four coverage groups are
mutually exclusive within a group and cap at 30+20+20+10, and the two
deductions only subtract. -/
theorem fitScoreRaw_le_80 (ds : Dataset) : fitScoreRaw ds ≤ 80 := by
  simp only [fitScoreRaw]
  split_ifs <;> omega

/-- C2: for every input dataset, the fit score of the record returned by
`analyze_dataset` is an integer in [0, 100]: the scoring rules apply in their
fixed order and the result is clamped by `max(0, min(100, ·))`. -/
theorem claim_C2_fit_score_bounds (ds : Dataset) :
    0 ≤ (analyze_dataset ds).fit_score ∧ (analyze_dataset ds).fit_score ≤ 100 := by
  show 0 ≤ fitScoreOf ds ∧ fitScoreOf ds ≤ 100
  unfold fitScoreOf
  omega

/-- C10: the fit score is at most 80 — the positive rules contribute at most
30+20+20+10 — so the upper clamp at 100 is never the active bound and the
clamp reduces to `max 0`. -/
theorem claim_C10_score_at_most_80 (ds : Dataset) :
    (analyze_dataset ds).fit_score ≤ 80 ∧
      (analyze_dataset ds).fit_score = max 0 (fitScoreRaw ds) := by
  have h := fitScoreRaw_le_80 ds
  show fitScoreOf ds ≤ 80 ∧ fitScoreOf ds = max 0 (fitScoreRaw ds)
  unfold fitScoreOf
  omega

/-- C7: for every analyzed dataset, every column's reported rates satisfy
`missing_rate + non_null_rate = 1` when `row_count > 0`, and both are 0 when
`row_count = 0`. -/
theorem claim_C7_missingness_identity (ds : Dataset) (p : String × MissInfo)
    (hp : p ∈ (analyze_dataset ds).missingness) :
    (0 < (analyze_dataset ds).rows →
      p.2.missing_rate + p.2.non_null_rate = 1) ∧
    ((analyze_dataset ds).rows = 0 →
      p.2.missing_rate = 0 ∧ p.2.non_null_rate = 0) := by
  have hp' : p ∈ missingnessOf ds := hp
  obtain ⟨col, -, rfl⟩ := List.mem_map.1 hp'
  show (0 < rowCount ds → _) ∧ (rowCount ds = 0 → _)
  unfold missingInfo
  constructor
  · intro h
    have h0 : rowCount ds ≠ 0 := Nat.pos_iff_ne_zero.1 h
    have hq : (rowCount ds : ℚ) ≠ 0 := Nat.cast_ne_zero.2 h0
    simp only [if_neg h0]
    push_cast
    field_simp
  · intro h
    simp only [if_pos h, and_self]

/-- Witness for C7 at a one-column, one-row dataset. -/
theorem claim_C7_witness :
    (( "A", missingInfo ⟨[ "A"], [[[Cell.num 1]]]⟩ "A") ∈
        (analyze_dataset ⟨[ "A"], [[[Cell.num 1]]]⟩).missingness) ∧
      ((0 < (analyze_dataset ⟨[ "A"], [[[Cell.num 1]]]⟩).rows →
        (missingInfo ⟨[ "A"], [[[Cell.num 1]]]⟩ "A").missing_rate +
          (missingInfo ⟨[ "A"], [[[Cell.num 1]]]⟩ "A").non_null_rate = 1) ∧
      ((analyze_dataset ⟨[ "A"], [[[Cell.num 1]]]⟩).rows = 0 →
        (missingInfo ⟨[ "A"], [[[Cell.num 1]]]⟩ "A").missing_rate = 0 ∧
          (missingInfo ⟨[ "A"], [[[Cell.num 1]]]⟩ "A").non_null_rate = 0)) :=
  ⟨List.mem_singleton.mpr rfl,
    claim_C7_missingness_identity ⟨[ "A"], [[[Cell.num 1]]]⟩
      ( "A", missingInfo ⟨[ "A"], [[[Cell.num 1]]]⟩ "A")
      (List.mem_singleton.mpr rfl)⟩

/-- C3 counterexample: a batch holding an unreadable-but-existing dataset
followed by a perfectly readable one aborts with the read error and yields NO
health record for the readable dataset — `main` re-raises instead of
skipping, so the claim "a read failure on one dataset still yields health
records for every remaining readable dataset" fails; the second conjunct
shows the same readable dataset alone does produce its record. -/
theorem claim_C3_counterexample_read_failure_aborts :
    runBatch [ .unreadable "x", .readable "y" ⟨[ "A"], [[[Cell.num 1]]]⟩] =
      .error ( "read failure: " ++ "x") ∧
    runBatch [ .readable "y" ⟨[ "A"], [[[Cell.num 1]]]⟩] =
      .ok [analyze_dataset ⟨[ "A"], [[[Cell.num 1]]]⟩] :=
  ⟨rfl, rfl⟩

/-- C3 amended: a dataset that does NOT EXIST is skipped with a diagnostic
and never aborts the batch — when every existing dataset is readable, the
batch yields exactly the health records of the readable datasets, in order.
(A read/open/header failure on an existing dataset, by contrast, propagates
out of `main` and aborts the whole batch.) -/
theorem claim_C3_amended_missing_skipped (sources : List Source)
    (h : ∀ s ∈ sources, s.isUnreadable = false) :
    runBatch sources =
      .ok ((sources.filterMap Source.readableOf).map analyze_dataset) := by
  induction sources with
  | nil => rfl
  | cons s ss ih =>
    have hss : ∀ x ∈ ss, x.isUnreadable = false :=
      fun x hx => h x (List.mem_cons_of_mem s hx)
    have ihh := ih hss
    cases s with
    | absent p => exact ihh
    | unreadable p =>
      exact absurd (h _ (List.mem_cons_self _ _)) (by simp [Source.isUnreadable])
    | readable p ds =>
      simp only [runBatch, discoverSources] at ihh ⊢
      rw [List.filter_cons_of_pos (by rfl)]
      show (match analyzeAll (List.filter _ ss) with
        | .error e => Except.error e
        | .ok rs => Except.ok (analyze_dataset ds :: rs)) = _
      rw [ihh]
      rfl

/-- Witness for C3 amended: one missing dataset plus one readable dataset
produce exactly the readable dataset's record. -/
theorem claim_C3_amended_witness :
    (∀ s ∈ [Source.absent "a",
        Source.readable "b" ⟨[ "A"], [[[Cell.num 1]]]⟩], s.isUnreadable = false) ∧
    runBatch [Source.absent "a", Source.readable "b" ⟨[ "A"], [[[Cell.num 1]]]⟩] =
      .ok (([Source.absent "a",
        Source.readable "b" ⟨[ "A"], [[[Cell.num 1]]]⟩].filterMap
          Source.readableOf).map analyze_dataset) :=
  ⟨by decide, claim_C3_amended_missing_skipped _ (by decide)⟩

/-- C4 counterexample: the column name `RAW_VIBRATION_0_5` normalizes to
`raw vibration 0 5`, which CONTAINS `raw`, yet `expect_vibration_range`
still returns the (0, 5) range because the `vibration 0 5` disjunct fires —
contradicting the claim that a name containing `raw` gets no enforced
range. -/
theorem claim_C4_counterexample_raw_name_gets_range :
    expect_vibration_range (some "RAW_VIBRATION_0_5") = some (0, 5) ∧
      containsSub "raw" (normalize_name "RAW_VIBRATION_0_5") = true ∧
      containsSub "vibration" (normalize_name "RAW_VIBRATION_0_5") = true := by
  decide

/-- C4 amended: `expect_vibration_range` returns the range (0, 5) exactly
when a column resolved and its normalized name either contains
`vibration 0 5`, or contains `vibration` while not containing `raw`; in
every other case (including no resolved column) it returns no enforced
range, and (0, 5) is the only range it can ever enforce. -/
theorem claim_C4_amended_vibration_range_iff (o : Option String) :
    (expect_vibration_range o = some (0, 5) ↔ ∃ s, o = some s ∧
      (containsSub "vibration 0 5" (normalize_name s) = true ∨
        (containsSub "vibration" (normalize_name s) = true ∧
          containsSub "raw" (normalize_name s) = false))) ∧
    (expect_vibration_range o = none ∨ expect_vibration_range o = some (0, 5)) := by
  cases o with
  | none => simp [expect_vibration_range]
  | some s =>
    constructor
    · simp only [expect_vibration_range, Option.some.injEq, exists_eq_left']
      by_cases hs : s = ""
      · subst hs
        simp only [if_pos rfl]
        constructor
        · intro hx; cases hx
        · intro hp; revert hp; decide
      · simp only [if_neg hs]
        cases hb : (containsSub "vibration 0 5" (normalize_name s) ||
            (containsSub "vibration" (normalize_name s) &&
              !containsSub "raw" (normalize_name s))) with
        | false =>
          simp only [hb, Bool.false_eq_true, if_false]
          constructor
          · intro hx; cases hx
          · rintro (h1 | ⟨h2, h3⟩)
            · simp [h1] at hb
            · simp [h2, h3] at hb
        | true =>
          simp only [hb, if_true]
          simp only [Bool.or_eq_true, Bool.and_eq_true, Bool.not_eq_true'] at hb
          exact ⟨fun _ => hb, fun _ => trivial⟩
    · unfold expect_vibration_range
      by_cases hs : s = ""
      · simp [hs]
      · simp only [if_neg hs]
        cases hb : (containsSub "vibration 0 5" (normalize_name s) ||
            (containsSub "vibration" (normalize_name s) &&
              !containsSub "raw" (normalize_name s))) <;> simp [hb]

/-- With zero rows every rate lookup feeding the fit score returns 0. -/
theorem lookupRate_eq_zero_of_no_rows (ds : Dataset) (h0 : rowCount ds = 0)
    (o : Option String) : lookupRate ds o = 0 := by
  cases o with
  | none => rfl
  | some c =>
    unfold lookupRate
    by_cases hce : c = ""
    · simp [hce]
    · simp only [if_neg hce]
      cases hf : (missingnessOf ds).find? (fun p => p.1 = c) with
      | none => rfl
      | some p =>
        obtain ⟨col, -, rfl⟩ := List.mem_map.1 (List.mem_of_find?_eq_some hf)
        simp [missingInfo, h0]

/-- C9: a dataset with a header but zero data rows yields a valid record:
zero rows, all missingness rates 0, empty numeric summary, fully-empty-row
rate 0, duplicate rate 0 and fit score 0 — every division is guarded by the
`if row_count else 0.0` / `if len(sample_df) else 0.0` branches, so no
division by zero is attempted. -/
theorem claim_C9_empty_dataset (ds : Dataset) (h : ds.chunks.flatten = []) :
    (analyze_dataset ds).rows = 0 ∧
    (∀ p ∈ (analyze_dataset ds).missingness,
      p.2.missing_rate = 0 ∧ p.2.non_null_rate = 0) ∧
    (analyze_dataset ds).numeric_stats = [] ∧
    (analyze_dataset ds).fully_empty_row_pct = 0 ∧
    (analyze_dataset ds).duplicate_sample.duplicate_rate = 0 ∧
    (analyze_dataset ds).fit_score = 0 := by
  have hc : ∀ c ∈ ds.chunks, c = [] := List.flatten_eq_nil_iff.1 h
  have hrows : rowCount ds = 0 := by
    unfold rowCount
    exact foldl_fixed _ _ _ fun c hcm s => by rw [hc c hcm]; rfl
  have hmiss : ∀ p ∈ missingnessOf ds,
      p.2.missing_rate = 0 ∧ p.2.non_null_rate = 0 := by
    intro p hp
    obtain ⟨col, -, rfl⟩ := List.mem_map.1 hp
    simp [missingInfo, hrows]
  have hstat : ∀ col, statFor ds col = RunningStat.init := by
    intro col
    unfold statFor
    exact foldl_fixed _ _ _ fun c hcm s => by
      rw [hc c hcm]; exact RunningStat.update_no_num s _ rfl
  have hsummary : numericSummaryOf ds = [] := by
    unfold numericSummaryOf
    refine List.filterMap_eq_nil_iff.2 fun col hcol => ?_
    simp [hstat col, RunningStat.init]
  have hfep : fullyEmptyPct ds = 0 := by
    unfold fullyEmptyPct
    rw [if_pos hrows]
  have hsample : dupSampleRows ds = [] := by
    unfold dupSampleRows sampleAccum
    rw [foldl_fixed _ _ _ fun c hcm s => by rw [hc c hcm]; simp]
  have hdup : (duplicateSampleOf ds).duplicate_rate = 0 := by
    unfold duplicateSampleOf
    by_cases hch : ds.chunks = []
    · rw [if_pos hch]
    · rw [if_neg hch]
      simp [hsample, dupCountFold]
  have hneg : depthNegativeOf ds = 0 := by
    unfold depthNegativeOf
    cases hd : (detect_standard_columns ds.header).depth with
    | none => rfl
    | some d =>
      by_cases hde : d = ""
      · simp [hde]
      · simp only [if_neg hde]
        exact foldl_fixed _ _ _ fun c hcm s => by rw [hc c hcm]; rfl
  have hraw : fitScoreRaw ds = 0 := by
    simp only [fitScoreRaw]
    norm_num [lookupRate_eq_zero_of_no_rows ds hrows, hfep, hneg]
  have hfs : fitScoreOf ds = 0 := by
    unfold fitScoreOf
    rw [hraw]
    decide
  exact ⟨hrows, hmiss, hsummary, hfep, hdup, hfs⟩

/-- Witness for C9 at a two-column dataset with no chunks. -/
theorem claim_C9_witness :
    (Dataset.mk [ "A", "B"] []).chunks.flatten = [] ∧
    ((analyze_dataset ⟨[ "A", "B"], []⟩).rows = 0 ∧
    (∀ p ∈ (analyze_dataset ⟨[ "A", "B"], []⟩).missingness,
      p.2.missing_rate = 0 ∧ p.2.non_null_rate = 0) ∧
    (analyze_dataset ⟨[ "A", "B"], []⟩).numeric_stats = [] ∧
    (analyze_dataset ⟨[ "A", "B"], []⟩).fully_empty_row_pct = 0 ∧
    (analyze_dataset ⟨[ "A", "B"], []⟩).duplicate_sample.duplicate_rate = 0 ∧
    (analyze_dataset ⟨[ "A", "B"], []⟩).fit_score = 0) :=
  ⟨rfl, claim_C9_empty_dataset ⟨[ "A", "B"], []⟩ rfl⟩

/-- The duplicate-sampling fold from any intermediate state: the retained
frames are the seed plus the first `r` of the remaining rows. -/
theorem sampleAccum_general (chunks : List (List Row)) (s : List Row) (r : ℕ) :
    chunks.foldl
      (fun acc c =>
        let take := min acc.2 c.length
        (acc.1 ++ c.take take, acc.2 - take)) (s, r) =
      (s ++ chunks.flatten.take r, r - min r chunks.flatten.length) := by
  induction chunks generalizing s r with
  | nil => simp
  | cons c cs ih =>
    rw [List.foldl_cons]
    simp only []
    rw [ih]
    have htake : c.take (min r c.length) = c.take r := by
      rcases Nat.le_total r c.length with hle | hle
      · rw [Nat.min_eq_left hle]
      · rw [Nat.min_eq_right hle, List.take_of_length_le le_rfl,
          List.take_of_length_le hle]
    rw [htake]
    have harg : r - min r c.length = r - c.length := by omega
    rw [harg, List.flatten_cons, List.take_append_eq_append_take,
      List.length_append, List.append_assoc]
    have hsub : r - c.length - min (r - c.length) cs.flatten.length =
        r - min r (c.length + cs.flatten.length) := by omega
    rw [hsub]

/-- The seen-set of the duplicate-counting fold is the reversed prefix. -/
theorem dupFold_seen (rows : List Row) (s : List Row) (n : ℕ) :
    (rows.foldl
      (fun (p : List Row × ℕ) r => (r :: p.1, if r ∈ p.1 then p.2 + 1 else p.2))
      (s, n)).1 = rows.reverse ++ s := by
  induction rows generalizing s n with
  | nil => simp
  | cons a l ih =>
    rw [List.foldl_cons, List.reverse_cons, List.append_assoc]
    exact ih (a :: s) _

/-- Appending one row to the sample adds 1 to the fold count exactly when
the row already occurs. -/
theorem dupCountFold_append (rows : List Row) (r : Row) :
    dupCountFold (rows ++ [r]) =
      dupCountFold rows + (if r ∈ rows then 1 else 0) := by
  unfold dupCountFold
  rw [List.foldl_append, List.foldl_cons, List.foldl_nil]
  have hseen := dupFold_seen rows [] 0
  rcases hfold : rows.foldl
      (fun (p : List Row × ℕ) r => (r :: p.1, if r ∈ p.1 then p.2 + 1 else p.2))
      ([], 0) with ⟨seen, n⟩
  rw [hfold] at hseen
  simp only at hseen ⊢
  rw [hseen, List.append_nil]
  simp only [List.mem_reverse]
  split_ifs <;> omega

/-- A row occurs in a list exactly when some position holds it. -/
theorem mem_iff_any_getD (rows : List Row) (r : Row) :
    (r ∈ rows) ↔ (List.range rows.length).any (fun j => rows.getD j [] = r) = true := by
  rw [List.any_eq_true]
  constructor
  · intro hm
    obtain ⟨j, hj, hget⟩ := List.mem_iff_getElem.1 hm
    exact ⟨j, List.mem_range.2 hj, by
      rw [List.getD_eq_getElem rows [] hj]
      simp [hget]⟩
  · rintro ⟨j, hj, hget⟩
    have hjl := List.mem_range.1 hj
    rw [List.getD_eq_getElem rows [] hjl] at hget
    rw [← of_decide_eq_true hget]
    exact List.getElem_mem hjl

/-- Appending one row to the sample adds 1 to the claim's positional count
exactly when the row already occurs. -/
theorem claimDupCount_append (rows : List Row) (r : Row) :
    claimDupCount (rows ++ [r]) =
      claimDupCount rows + (if r ∈ rows then 1 else 0) := by
  unfold claimDupCount
  rw [List.length_append, List.length_singleton, List.range_succ, List.countP_append]
  congr 1
  · refine List.countP_congr fun i hi => ?_
    have hilt := List.mem_range.1 hi
    constructor
    · intro hany
      obtain ⟨j, hj, hget⟩ := List.any_eq_true.1 hany
      have hjlt : j < i := List.mem_range.1 hj
      refine List.any_eq_true.2 ⟨j, hj, ?_⟩
      simp only [decide_eq_true_eq] at hget ⊢
      rw [List.getD_append _ _ _ _ (by omega), List.getD_append _ _ _ _ (by omega)]
        at hget
      exact hget
    · intro hany
      obtain ⟨j, hj, hget⟩ := List.any_eq_true.1 hany
      have hjlt : j < i := List.mem_range.1 hj
      refine List.any_eq_true.2 ⟨j, hj, ?_⟩
      simp only [decide_eq_true_eq] at hget ⊢
      rw [List.getD_append _ _ _ _ (by omega), List.getD_append _ _ _ _ (by omega)]
      exact hget
  · rw [List.countP_cons, List.countP_nil, Nat.zero_add]
    have hr : (rows ++ [r]).getD rows.length [] = r := by
      rw [List.getD_append_right _ _ _ _ le_rfl, Nat.sub_self]
      rfl
    by_cases hm : r ∈ rows
    · rw [if_pos hm]
      have : ((List.range rows.length).any
          (fun j => decide ((rows ++ [r]).getD j [] = (rows ++ [r]).getD rows.length []))) = true := by
        rw [hr]
        rw [List.any_eq_true]
        obtain ⟨j, hj, hget⟩ := List.any_eq_true.1 ((mem_iff_any_getD rows r).1 hm)
        refine ⟨j, hj, ?_⟩
        simp only [decide_eq_true_eq] at hget ⊢
        rw [List.getD_append _ _ _ _ (List.mem_range.1 hj)]
        exact hget
      rw [if_pos this]
    · rw [if_neg hm]
      have : ¬ ((List.range rows.length).any
          (fun j => decide ((rows ++ [r]).getD j [] = (rows ++ [r]).getD rows.length []))) = true := by
        rw [hr]
        intro hany
        obtain ⟨j, hj, hget⟩ := List.any_eq_true.1 hany
        simp only [decide_eq_true_eq] at hget
        rw [List.getD_append _ _ _ _ (List.mem_range.1 hj)] at hget
        exact hm ((mem_iff_any_getD rows r).2 (List.any_eq_true.2
          ⟨j, hj, decide_eq_true hget⟩))
      rw [if_neg this]

/-- The fold implementing `duplicated().sum()` agrees with the claim's
count of rows repeating an earlier row. -/
theorem dupCountFold_eq_claim (rows : List Row) :
    dupCountFold rows = claimDupCount rows := by
  induction rows using List.reverseRecOn with
  | nil => rfl
  | append_singleton l r ih => rw [dupCountFold_append, claimDupCount_append, ih]

/-- C6: the duplicate sampler retains exactly the first `min(cap, seen)` rows
in arrival order after any number of chunks and never exceeds the cap; at
finalization `duplicate_rows` counts retained rows that exactly repeat an
earlier retained row, and `duplicate_rate` is `duplicate_rows / sample_rows`
(0 when the sample is empty). -/
theorem claim_C6_duplicate_sample (cap : ℕ) (chunks : List (List Row)) (ds : Dataset) :
    (sampleAccum cap chunks).1 = chunks.flatten.take cap ∧
    (sampleAccum cap chunks).1.length ≤ cap ∧
    (analyze_dataset ds).duplicate_sample.sample_rows =
      (ds.chunks.flatten.take DUPLICATE_SAMPLE_ROWS).length ∧
    (analyze_dataset ds).duplicate_sample.duplicate_rows =
      claimDupCount (ds.chunks.flatten.take DUPLICATE_SAMPLE_ROWS) ∧
    (analyze_dataset ds).duplicate_sample.duplicate_rate =
      (if ds.chunks.flatten.take DUPLICATE_SAMPLE_ROWS = [] then 0 else
        (claimDupCount (ds.chunks.flatten.take DUPLICATE_SAMPLE_ROWS) : ℚ) /
          (ds.chunks.flatten.take DUPLICATE_SAMPLE_ROWS).length) := by
  have hgen : ∀ (c : ℕ) (l : List (List Row)), (sampleAccum c l).1 = l.flatten.take c :=
    fun c l => by
      unfold sampleAccum
      rw [sampleAccum_general l [] c, List.nil_append]
  have hsample : dupSampleRows ds = ds.chunks.flatten.take DUPLICATE_SAMPLE_ROWS :=
    hgen DUPLICATE_SAMPLE_ROWS ds.chunks
  refine ⟨hgen cap chunks, ?_, ?_⟩
  · rw [hgen cap chunks, List.length_take]
    exact min_le_left _ _
  · show (duplicateSampleOf ds).sample_rows = _ ∧
      (duplicateSampleOf ds).duplicate_rows = _ ∧
      (duplicateSampleOf ds).duplicate_rate = _
    unfold duplicateSampleOf
    by_cases hch : ds.chunks = []
    · rw [if_pos hch, hch]
      simp [claimDupCount]
    · rw [if_neg hch]
      refine ⟨?_, ?_, ?_⟩
      · show (dupSampleRows ds).length = _
        rw [hsample]
      · show dupCountFold (dupSampleRows ds) = _
        rw [hsample, dupCountFold_eq_claim]
      · show (if (dupSampleRows ds).length = 0 then (0 : ℚ) else
            (dupCountFold (dupSampleRows ds) : ℚ) / (dupSampleRows ds).length) = _
        rw [hsample, dupCountFold_eq_claim]
        by_cases hemp : ds.chunks.flatten.take DUPLICATE_SAMPLE_ROWS = []
        · rw [if_pos (by rw [hemp]; rfl), if_pos hemp]
        · rw [if_neg (fun hlen => hemp (List.length_eq_zero.1 hlen)), if_neg hemp]

/-- Coercing a purely numeric series recovers the numbers. -/
theorem filterMap_toNum_map_num (l : List ℚ) :
    (l.map Cell.num).filterMap Cell.toNum = l := by
  rw [List.filterMap_map]
  show List.filterMap some l = l
  exact List.filterMap_some l

/-- Expansion of a sum of squared deviations about an arbitrary center. -/
theorem sum_sq_dev (l : List ℚ) (c : ℚ) :
    (l.map (fun x => (x - c) ^ 2)).sum =
      (l.map (fun x => x ^ 2)).sum - 2 * c * l.sum + l.length * c ^ 2 := by
  induction l with
  | nil => simp
  | cons x xs ih =>
    simp only [List.map_cons, List.sum_cons, List.length_cons, ih]
    push_cast
    ring

/-- For a nonempty series, `var(ddof=0) * n` is the sum of squares minus the
squared sum over n. -/
theorem pvar_mul_length (l : List ℚ) (hl : l ≠ []) :
    pvar l * l.length =
      (l.map (fun x => x ^ 2)).sum - l.sum ^ 2 / l.length := by
  have hn : (l.length : ℚ) ≠ 0 :=
    Nat.cast_ne_zero.2 (fun h0 => hl (List.length_eq_zero.1 h0))
  unfold pvar pmean
  rw [sum_sq_dev]
  field_simp
  ring

/-- Folding `min` from a shifted seed. -/
theorem foldl_min_shift (ys : List ℚ) :
    ∀ a y : ℚ, ys.foldl min (min a y) = min a (ys.foldl min y) := by
  induction ys with
  | nil => intro a y; rfl
  | cons z zs ih =>
    intro a y
    rw [List.foldl_cons, List.foldl_cons, min_assoc, ih]

/-- Folding `max` from a shifted seed. -/
theorem foldl_max_shift (ys : List ℚ) :
    ∀ a y : ℚ, ys.foldl max (max a y) = max a (ys.foldl max y) := by
  induction ys with
  | nil => intro a y; rfl
  | cons z zs ih =>
    intro a y
    rw [List.foldl_cons, List.foldl_cons, max_assoc, ih]

/-- The minimum of a concatenation of nonempty series. -/
theorem listMin_append (xs ys : List ℚ) (hx : xs ≠ []) (hy : ys ≠ []) :
    listMin (xs ++ ys) = min (listMin xs) (listMin ys) := by
  rcases xs with _ | ⟨x, xs'⟩
  · exact absurd rfl hx
  rcases ys with _ | ⟨y, ys'⟩
  · exact absurd rfl hy
  show (xs' ++ y :: ys').foldl min x = min (xs'.foldl min x) (ys'.foldl min y)
  rw [List.foldl_append, List.foldl_cons, foldl_min_shift]

/-- The maximum of a concatenation of nonempty series. -/
theorem listMax_append (xs ys : List ℚ) (hx : xs ≠ []) (hy : ys ≠ []) :
    listMax (xs ++ ys) = max (listMax xs) (listMax ys) := by
  rcases xs with _ | ⟨x, xs'⟩
  · exact absurd rfl hx
  rcases ys with _ | ⟨y, ys'⟩
  · exact absurd rfl hy
  show (xs' ++ y :: ys').foldl max x = max (xs'.foldl max x) (ys'.foldl max y)
  rw [List.foldl_append, List.foldl_cons, foldl_max_shift]

/-- The source's strict-comparison update of the running minimum is the
lattice minimum. -/
theorem ite_lt_eq_min (x y : ℚ) : (if y < x then y else x) = min x y := by
  split_ifs with h
  · exact (min_eq_right h.le).symm
  · exact (min_eq_left (not_lt.1 h)).symm

/-- The source's strict-comparison update of the running maximum is the
lattice maximum. -/
theorem ite_lt_eq_max (x y : ℚ) : (if x < y then y else x) = max x y := by
  split_ifs with h
  · exact (max_eq_right h.le).symm
  · exact (max_eq_left (not_lt.1 h)).symm

/-- Evaluating `update` on a fresh accumulator with a nonempty numeric
batch: the accumulator becomes the batch statistics outright. -/
theorem init_update_eval (xs : List ℚ) (hx : xs ≠ []) :
    RunningStat.init.update (xs.map Cell.num) =
      { count := xs.length, mean := pmean xs, m2 := pvar xs * xs.length,
        min_value := some (listMin xs), max_value := some (listMax xs) } := by
  unfold RunningStat.update
  rw [filterMap_toNum_map_num, if_neg hx]
  rfl

/-- Evaluating `update` on a nonempty accumulator with a nonempty numeric
batch: Chan's merge of count, mean and M2, and comparison-merge of
min/max. -/
theorem update_merge_eval (s : RunningStat) (ys : List ℚ) (hy : ys ≠ [])
    (hc : s.count ≠ 0) :
    s.update (ys.map Cell.num) =
      { count := s.count + ys.length,
        mean := s.mean + (pmean ys - s.mean) * (ys.length : ℚ) /
          ((s.count + ys.length : ℕ) : ℚ),
        m2 := s.m2 + pvar ys * (ys.length : ℚ) +
          (pmean ys - s.mean) * (pmean ys - s.mean) * (s.count : ℚ) *
            (ys.length : ℚ) / ((s.count + ys.length : ℕ) : ℚ),
        min_value :=
          match s.min_value with
          | none => some (listMin ys)
          | some m => if listMin ys < m then some (listMin ys) else some m,
        max_value :=
          match s.max_value with
          | none => some (listMax ys)
          | some m => if m < listMax ys then some (listMax ys) else some m } := by
  unfold RunningStat.update
  rw [filterMap_toNum_map_num, if_neg hy]
  simp only [if_neg hc]

/-- Merging a second nonoverlapping batch into an accumulator equals
accumulating the concatenated data in one shot: Chan's combination is exact
in exact arithmetic. -/
theorem update_append_num (xs ys : List ℚ) :
    (RunningStat.init.update (xs.map Cell.num)).update (ys.map Cell.num) =
      RunningStat.init.update ((xs ++ ys).map Cell.num) := by
  rcases eq_or_ne ys [] with hy | hy
  · subst hy
    rw [List.append_nil]
    exact RunningStat.update_no_num _ _ rfl
  rcases eq_or_ne xs [] with hx | hx
  · subst hx
    rw [List.nil_append,
      RunningStat.update_no_num RunningStat.init (List.map Cell.num []) rfl]
  have hxy : xs ++ ys ≠ [] := fun h => hx (List.append_eq_nil.1 h).1
  have hn1 : (xs.length : ℚ) ≠ 0 :=
    Nat.cast_ne_zero.2 fun h0 => hx (List.length_eq_zero.1 h0)
  have hn2 : (ys.length : ℚ) ≠ 0 :=
    Nat.cast_ne_zero.2 fun h0 => hy (List.length_eq_zero.1 h0)
  have hn12 : ((xs.length : ℚ) + ys.length) ≠ 0 := by
    have h1 : (0 : ℚ) < xs.length := by
      rcases Nat.eq_zero_or_pos xs.length with h | h
      · exact absurd (Nat.cast_eq_zero.2 h) hn1
      · exact_mod_cast h
    have h2 : (0 : ℚ) ≤ ys.length := by positivity
    positivity
  rw [init_update_eval xs hx, init_update_eval (xs ++ ys) hxy,
    update_merge_eval _ ys hy (by simpa using fun h0 => hx (List.length_eq_zero.1 h0))]
  simp only [RunningStat.mk.injEq]
  refine ⟨(List.length_append xs ys).symm, ?_, ?_, ?_, ?_⟩
  · unfold pmean
    rw [List.sum_append, List.length_append]
    push_cast
    field_simp
    ring
  · rw [pvar_mul_length xs hx, pvar_mul_length ys hy, pvar_mul_length (xs ++ ys) hxy]
    unfold pmean
    rw [List.map_append, List.sum_append, List.sum_append, List.length_append]
    push_cast
    field_simp
    ring
  · rw [listMin_append xs ys hx hy, ← apply_ite Option.some, ite_lt_eq_min]
  · rw [listMax_append xs ys hx hy, ← apply_ite Option.some, ite_lt_eq_max]

/-- Folding batches into an accumulator that already holds `xs` equals one
update with everything concatenated. -/
theorem foldl_update_eq (batches : List (List ℚ)) (xs : List ℚ) :
    batches.foldl (fun s b => s.update (b.map Cell.num))
      (RunningStat.init.update (xs.map Cell.num)) =
      RunningStat.init.update ((xs ++ batches.flatten).map Cell.num) := by
  induction batches generalizing xs with
  | nil => rw [List.foldl_nil, List.flatten_nil, List.append_nil]
  | cons b bs ih =>
    rw [List.foldl_cons, update_append_num, ih, List.flatten_cons,
      List.append_assoc]

/-- C1: for every finite numeric sequence and every partition of it into
consecutive batches, folding the batches one at a time into a fresh
`RunningStat` via `update` produces exactly the same accumulator — hence the
same count, mean and std — as ingesting the whole sequence in a single
`update` call; Chan's combination is exact in exact (ℚ) arithmetic. -/
theorem claim_C1_runningstat_partition_merge (batches : List (List ℚ)) :
    batches.foldl (fun s b => s.update (b.map Cell.num)) RunningStat.init =
      RunningStat.init.update (batches.flatten.map Cell.num) ∧
    (batches.foldl (fun s b => s.update (b.map Cell.num)) RunningStat.init).count =
      (RunningStat.init.update (batches.flatten.map Cell.num)).count ∧
    (batches.foldl (fun s b => s.update (b.map Cell.num)) RunningStat.init).mean =
      (RunningStat.init.update (batches.flatten.map Cell.num)).mean ∧
    (if (batches.foldl (fun s b => s.update (b.map Cell.num)) RunningStat.init).count ≤ 1
      then (0 : ℝ)
      else Real.sqrt
        (((batches.foldl (fun s b => s.update (b.map Cell.num)) RunningStat.init).m2 : ℝ) /
          ((batches.foldl (fun s b => s.update (b.map Cell.num)) RunningStat.init).count : ℝ))) =
    (if (RunningStat.init.update (batches.flatten.map Cell.num)).count ≤ 1
      then (0 : ℝ)
      else Real.sqrt
        (((RunningStat.init.update (batches.flatten.map Cell.num)).m2 : ℝ) /
          ((RunningStat.init.update (batches.flatten.map Cell.num)).count : ℝ))) := by
  have h : batches.foldl (fun s b => s.update (b.map Cell.num)) RunningStat.init =
      RunningStat.init.update (batches.flatten.map Cell.num) := by
    have h0 : RunningStat.init =
        RunningStat.init.update (List.map Cell.num []) :=
      (RunningStat.update_no_num RunningStat.init (List.map Cell.num []) rfl).symm
    conv_lhs => rw [h0]
    rw [foldl_update_eq batches [], List.nil_append]
  exact ⟨h, by rw [h], by rw [h], by rw [h]⟩

/-- The effect of one more column on the last-exact lookup: the new column
shadows earlier columns with the same normalized form. -/
theorem lastExact_append (cs : List String) (c : String) (k : String) :
    lastExact (cs ++ [c]) k =
      if normalize_name c = k then some c else lastExact cs k := by
  unfold lastExact
  rw [List.reverse_append]
  show List.find? _ (c :: cs.reverse) = _
  by_cases h : normalize_name c = k
  · rw [if_pos h]
    exact List.find?_cons_of_pos _ (decide_eq_true h)
  · rw [if_neg h]
    exact List.find?_cons_of_neg _ (by simpa using h)

/-- The effect of one more column on the first-occurrence key list. -/
theorem firstOccNorms_append (cs : List String) (c : String) :
    firstOccNorms (cs ++ [c]) =
      if normalize_name c ∈ firstOccNorms cs then firstOccNorms cs
      else firstOccNorms cs ++ [normalize_name c] := by
  unfold firstOccNorms
  rw [List.foldl_append, List.foldl_cons, List.foldl_nil]

/-- A key occurs among the first-occurrence normalized names exactly when
some column normalizes to it. -/
theorem mem_firstOccNorms (cols : List String) (k : String) :
    k ∈ firstOccNorms cols ↔ ∃ c ∈ cols, normalize_name c = k := by
  induction cols using List.reverseRecOn with
  | nil => simp [firstOccNorms]
  | append_singleton cs c ih =>
    rw [firstOccNorms_append]
    by_cases h : normalize_name c ∈ firstOccNorms cs
    · rw [if_pos h]
      constructor
      · intro hk
        obtain ⟨w, hw, hnw⟩ := ih.1 hk
        exact ⟨w, List.mem_append_left _ hw, hnw⟩
      · rintro ⟨x, hx, hnx⟩
        rcases List.mem_append.1 hx with hx | hx
        · exact ih.2 ⟨x, hx, hnx⟩
        · rw [List.mem_singleton.1 hx] at hnx
          rw [← hnx]
          exact h
    · rw [if_neg h]
      rw [List.mem_append, List.mem_singleton, ih]
      constructor
      · rintro (⟨w, hw, hnw⟩ | hk)
        · exact ⟨w, List.mem_append_left _ hw, hnw⟩
        · exact ⟨c, List.mem_append_right _ (List.mem_singleton.2 rfl), hk.symm⟩
      · rintro ⟨x, hx, hnx⟩
        rcases List.mem_append.1 hx with hx | hx
        · exact Or.inl ⟨x, hx, hnx⟩
        · rw [List.mem_singleton.1 hx] at hnx
          exact Or.inr hnx.symm

/-- `any` over a mapped list tests the composite predicate. -/
theorem any_map_general {α β : Type} (f : α → β) (l : List α) (p : β → Bool) :
    (l.map f).any p = l.any (fun a => p (f a)) := by
  induction l with
  | nil => rfl
  | cons a l ih => simp [List.any_cons, ih]

/-- Characterization of the normalized-name dict: its keys are the
normalized header names in first-occurrence order, and each key maps to the
LAST header with that normalized form. -/
theorem buildNormMap_eq (cols : List String) :
    buildNormMap cols =
      (firstOccNorms cols).map (fun k => (k, (lastExact cols k).getD "")) := by
  induction cols using List.reverseRecOn with
  | nil => rfl
  | append_singleton cs c ih =>
    have hstep : buildNormMap (cs ++ [c]) =
        (let key := normalize_name c
         if (buildNormMap cs).any (fun p => p.1 = key) then
           (buildNormMap cs).map (fun p => if p.1 = key then (key, c) else p)
         else buildNormMap cs ++ [(key, c)]) := by
      unfold buildNormMap
      rw [List.foldl_append, List.foldl_cons, List.foldl_nil]
    rw [hstep, firstOccNorms_append, ih]
    simp only []
    by_cases hmem : normalize_name c ∈ firstOccNorms cs
    · have hany : ((firstOccNorms cs).map
          (fun k => (k, (lastExact cs k).getD ""))).any
            (fun p => p.1 = normalize_name c) = true := by
        rw [any_map_general, List.any_eq_true]
        exact ⟨normalize_name c, hmem, by simp⟩
      rw [if_pos hany, if_pos hmem, List.map_map]
      refine List.map_congr_left fun k hk => ?_
      by_cases hkc : k = normalize_name c
      · subst hkc
        simp [Function.comp, lastExact_append]
      · simp [Function.comp, hkc, lastExact_append, Ne.symm hkc]
    · have hany : ¬ (((firstOccNorms cs).map
          (fun k => (k, (lastExact cs k).getD ""))).any
            (fun p => p.1 = normalize_name c) = true) := by
        rw [any_map_general, List.any_eq_true]
        rintro ⟨k, hk, hkc⟩
        simp only [decide_eq_true_eq] at hkc
        exact hmem (hkc ▸ hk)
      rw [if_neg hany, if_neg hmem, List.map_append]
      congr 1
      · refine List.map_congr_left fun k hk => ?_
        rw [lastExact_append,
          if_neg (fun (h : normalize_name c = k) => hmem (h ▸ hk))]
      · simp [lastExact_append]

/-- `find?` for equality with a fixed key. -/
theorem find_eq_self (l : List String) (k : String) :
    l.find? (fun x => x = k) = if k ∈ l then some k else none := by
  induction l with
  | nil => rfl
  | cons a l ih =>
    by_cases ha : a = k
    · subst ha
      rw [List.find?_cons_of_pos _ (by simp), if_pos (List.mem_cons_self a l)]
    · rw [List.find?_cons_of_neg _ (by simpa using ha), ih]
      by_cases hm : k ∈ l
      · rw [if_pos hm, if_pos (List.mem_cons_of_mem a hm)]
      · rw [if_neg hm, if_neg (fun hc => by
          rcases List.mem_cons.1 hc with hc | hc
          · exact ha hc.symm
          · exact hm hc)]

/-- A last-exact lookup succeeds exactly for keys of the dict. -/
theorem lastExact_isSome_of_mem (cols : List String) (k : String)
    (hm : k ∈ firstOccNorms cols) : (lastExact cols k).isSome = true := by
  obtain ⟨c, hc, hnc⟩ := (mem_firstOccNorms cols k).1 hm
  rw [lastExact, List.find?_isSome]
  exact ⟨c, List.mem_reverse.2 hc, decide_eq_true hnc⟩

/-- The exact pass of `find_column` over the dict equals the last-exact
lookup. -/
theorem exact_pass (cols : List String) (k : String) :
    ((buildNormMap cols).find? (fun p => p.1 = k)).map (fun p => p.2) =
      lastExact cols k := by
  rw [buildNormMap_eq, List.find?_map]
  show (Option.map _ ((firstOccNorms cols).find? (fun x => x = k))).map _ = _
  rw [find_eq_self]
  by_cases hm : k ∈ firstOccNorms cols
  · rw [if_pos hm]
    obtain ⟨v, hv⟩ := Option.isSome_iff_exists.1 (lastExact_isSome_of_mem cols k hm)
    show some ((lastExact cols k).getD "") = lastExact cols k
    rw [hv]
    rfl
  · rw [if_neg hm]
    show (none : Option String) = lastExact cols k
    symm
    show List.find? _ cols.reverse = none
    refine List.find?_eq_none.2 fun x hx hnx => ?_
    exact hm ((mem_firstOccNorms cols k).2
      ⟨x, List.mem_reverse.1 hx, of_decide_eq_true hnx⟩)

/-- The substring pass of `find_column` over the dict equals the spec's
first-occurrence scan resolved through the last-exact lookup. -/
theorem sub_pass (cols : List String) (k : String) :
    ((buildNormMap cols).find? (fun p => containsSub k p.1)).map (fun p => p.2) =
      ((firstOccNorms cols).find? (fun nrm => containsSub k nrm)).bind
        (fun nrm => lastExact cols nrm) := by
  rw [buildNormMap_eq, List.find?_map]
  show (Option.map _ ((firstOccNorms cols).find? (fun nrm => containsSub k nrm))).map _ = _
  cases hf : (firstOccNorms cols).find? (fun nrm => containsSub k nrm) with
  | none => rfl
  | some nrm =>
    obtain ⟨v, hv⟩ := Option.isSome_iff_exists.1
      (lastExact_isSome_of_mem cols nrm (List.mem_of_find?_eq_some hf))
    show some ((lastExact cols nrm).getD "") = lastExact cols nrm
    rw [hv]
    rfl

/-- The source's `find_column` agrees with the spec-worded resolution. -/
theorem find_column_eq_spec (cols cands : List String) :
    find_column cols cands = findColumnSpec cols cands := by
  simp only [find_column, findColumnSpec]
  have h1 : cands.findSome? (fun cand =>
      ((buildNormMap cols).find? (fun p => p.1 = normalize_name cand)).map
        (fun p => p.2)) =
      cands.findSome? (fun cand => lastExact cols (normalize_name cand)) :=
    congrArg (fun f => List.findSome? f cands)
      (funext fun cand => exact_pass cols (normalize_name cand))
  have h2 : cands.findSome? (fun cand =>
      if normalize_name cand = "" then none
      else ((buildNormMap cols).find?
        (fun p => containsSub (normalize_name cand) p.1)).map (fun p => p.2)) =
      cands.findSome? (fun cand =>
        if normalize_name cand = "" then none
        else ((firstOccNorms cols).find?
          (fun nrm => containsSub (normalize_name cand) nrm)).bind
            (fun nrm => lastExact cols nrm)) :=
    congrArg (fun f => List.findSome? f cands)
      (funext fun cand => by
        by_cases hk : normalize_name cand = ""
        · rw [if_pos hk, if_pos hk]
        · rw [if_neg hk, if_neg hk]
          exact sub_pass cols (normalize_name cand))
  rw [h1, h2]

/-- C5 counterexample: with headers `A_B` and `A B` — which share the
normalized form `a b` — and candidate `A_B`, the FIRST header whose
normalized form equals the normalized candidate is `A_B`, yet `find_column`
returns `A B`: the dict comprehension is last-writer-wins on normalized-name
collisions, so the claim's "returns the first header" fails. -/
theorem claim_C5_counterexample_collision_last_wins :
    find_column [ "A_B", "A B"] [ "A_B"] = some "A B" ∧
    List.find? (fun c => normalize_name c = normalize_name "A_B")
      [ "A_B", "A B"] = some "A_B" ∧
    ( "A_B" : String) ≠ "A B" := by
  refine ⟨rfl, rfl, ?_⟩
  decide

/-- C5 amended: `find_column` walks the candidates in priority order and
returns the header whose normalized form exactly equals the normalized
candidate — the LAST such header when several share that normalized form;
only if no exact match exists does it walk the candidates again (skipping
candidates whose normalized form is empty) and resolve the first normalized
header form, in order of first occurrence, containing the candidate as a
substring — again yielding the last header with that normalized form; with
no match at all it returns unresolved (`none`) without raising.  In
particular `find_column ["BIT_DEPTH", "DEPTH_ROP"] ["BIT_DEPTH", "DEPTH"]`
returns `BIT_DEPTH`. -/
theorem claim_C5_amended_resolution_spec :
    (∀ columns candidates : List String,
      find_column columns candidates = findColumnSpec columns candidates) ∧
    find_column [ "BIT_DEPTH", "DEPTH_ROP"] [ "BIT_DEPTH", "DEPTH"] =
      some "BIT_DEPTH" :=
  ⟨find_column_eq_spec, rfl⟩

/-- A nonempty needle is no substring of the empty string. -/
theorem containsSub_empty_right (k : String) (hk : k ≠ "") :
    containsSub k "" = false := by
  rcases k with ⟨d⟩
  cases d with
  | nil => exact absurd rfl hk
  | cons c cs => rfl

/-- A successful last-exact lookup returns a member of the header whose
normalized form is the key. -/
theorem lastExact_spec (cols : List String) (k v : String)
    (h : lastExact cols k = some v) : v ∈ cols ∧ normalize_name v = k := by
  unfold lastExact at h
  have h1 := List.find?_some h
  simp only [decide_eq_true_eq] at h1
  exact ⟨List.mem_reverse.1 (List.mem_of_find?_eq_some h), h1⟩

/-- When every candidate has a nonempty normalized form, a resolved column
is a member of the header and is itself nonempty. -/
theorem find_column_mem_ne_empty (cols cands : List String)
    (hcands : ∀ c ∈ cands, normalize_name c ≠ "") (v : String)
    (hv : find_column cols cands = some v) : v ∈ cols ∧ v ≠ "" := by
  rw [find_column_eq_spec] at hv
  simp only [findColumnSpec] at hv
  have hne : ∀ w, normalize_name w ≠ "" → w ≠ "" := by
    intro w hw hcon
    exact hw (by rw [hcon]; rfl)
  rcases hm : cands.findSome? (fun cand => lastExact cols (normalize_name cand)) with
    _ | col
  · rw [hm] at hv
    obtain ⟨cand, hcand, hfc⟩ := List.exists_of_findSome?_eq_some hv
    by_cases hk : normalize_name cand = ""
    · rw [if_pos hk] at hfc
      cases hfc
    · rw [if_neg hk] at hfc
      obtain ⟨nrm, hnrm, hlast⟩ := Option.bind_eq_some.1 hfc
      obtain ⟨hvmem, hvnorm⟩ := lastExact_spec cols nrm v hlast
      have hsub := List.find?_some hnrm
      have hnrm_ne : nrm ≠ "" := by
        intro hcon
        rw [hcon, containsSub_empty_right _ hk] at hsub
        cases hsub
      exact ⟨hvmem, hne v (by rw [hvnorm]; exact hnrm_ne)⟩
  · rw [hm] at hv
    cases hv
    obtain ⟨cand, hcand, hfc⟩ := List.exists_of_findSome?_eq_some hm
    obtain ⟨hvmem, hvnorm⟩ := lastExact_spec cols _ _ hfc
    exact ⟨hvmem, hne _ (by rw [hvnorm]; exact hcands cand hcand)⟩

/-- Looking a member column up in a per-column map finds its entry. -/
theorem find_missingness_aux (ds : Dataset) (l : List String) (c : String)
    (hc : c ∈ l) :
    (l.map (fun col => (col, missingInfo ds col))).find? (fun p => p.1 = c) =
      some (c, missingInfo ds c) := by
  induction l with
  | nil => cases hc
  | cons a l ih =>
    rw [List.map_cons]
    by_cases ha : a = c
    · subst ha
      exact List.find?_cons_of_pos _ (by simp)
    · rw [List.find?_cons_of_neg _ (by simpa using ha)]
      exact ih ((List.mem_cons.1 hc).resolve_left fun h => ha h.symm)

/-- Looking a header column up in the missingness map finds its entry. -/
theorem find_missingness (ds : Dataset) (c : String) (hc : c ∈ ds.header) :
    (missingnessOf ds).find? (fun p => p.1 = c) = some (c, missingInfo ds c) :=
  find_missingness_aux ds ds.header c hc

/-- The rate lookup of a resolved, nonempty header column is that column's
non-null rate. -/
theorem lookupRate_resolved (ds : Dataset) (c : String) (hc : c ∈ ds.header)
    (hne : c ≠ "") :
    lookupRate ds (some c) = (missingInfo ds c).non_null_rate := by
  show (if c = "" then (0 : ℚ) else
      (((missingnessOf ds).find? (fun p => p.1 = c)).map
        (fun p => p.2.non_null_rate)).getD 0) =
    (missingInfo ds c).non_null_rate
  rw [if_neg hne, find_missingness ds c hc]
  rfl

/-- No fully-empty rows means a zero fully-empty-row rate. -/
theorem fullyEmptyPct_of_zero (ds : Dataset) (h : fullyEmptyRows ds = 0) :
    fullyEmptyPct ds = 0 := by
  unfold fullyEmptyPct
  rw [h]
  split_ifs <;> simp

/-- C8: when depth, ROP, vibration and time all resolve and each resolved
column has non-null rate 1, with no fully-empty rows and no negative depth
observations, the fit score is exactly 30+20+20+10 = 80. -/
theorem claim_C8_full_coverage_score_80 (ds : Dataset) (d r v t : String)
    (hd : (analyze_dataset ds).standard_columns.depth = some d)
    (hr : (analyze_dataset ds).standard_columns.rop = some r)
    (hv : (analyze_dataset ds).standard_columns.vibration = some v)
    (ht : (analyze_dataset ds).standard_columns.time = some t)
    (hdr : (missingInfo ds d).non_null_rate = 1)
    (hrr : (missingInfo ds r).non_null_rate = 1)
    (hvr : (missingInfo ds v).non_null_rate = 1)
    (htr : (missingInfo ds t).non_null_rate = 1)
    (hempty : (analyze_dataset ds).fully_empty_rows = 0)
    (hneg : (analyze_dataset ds).depth_negative = 0) :
    (analyze_dataset ds).fit_score = 80 := by
  have hd' : (detect_standard_columns ds.header).depth = some d := hd
  have hr' : (detect_standard_columns ds.header).rop = some r := hr
  have hv' : (detect_standard_columns ds.header).vibration = some v := hv
  have ht' : (detect_standard_columns ds.header).time = some t := ht
  have hdm := find_column_mem_ne_empty _ _ (by decide) d hd'
  have hrm := find_column_mem_ne_empty _ _ (by decide) r hr'
  have hvm := find_column_mem_ne_empty _ _ (by decide) v hv'
  have htm := find_column_mem_ne_empty _ _ (by decide) t ht'
  have hraw : fitScoreRaw ds = 80 := by
    simp only [fitScoreRaw]
    rw [hd', hr', hv', ht',
      lookupRate_resolved ds d hdm.1 hdm.2, lookupRate_resolved ds r hrm.1 hrm.2,
      lookupRate_resolved ds v hvm.1 hvm.2, lookupRate_resolved ds t htm.1 htm.2,
      hdr, hrr, hvr, htr]
    have hfep := fullyEmptyPct_of_zero ds hempty
    have hneg' : depthNegativeOf ds = 0 := hneg
    rw [hfep, hneg']
    norm_num [hdm.2, hrm.2, hvm.2, htm.2]
  show fitScoreOf ds = 80
  unfold fitScoreOf
  rw [hraw]
  decide

/-- Witness for C8: the four-column full-coverage dataset scores exactly
80. -/
theorem claim_C8_witness :
    ((analyze_dataset fullCoverageExample).standard_columns.depth = some "BIT_DEPTH") ∧
    ((analyze_dataset fullCoverageExample).standard_columns.rop = some "ROP") ∧
    ((analyze_dataset fullCoverageExample).standard_columns.vibration =
      some "VIBRATION_0_5") ∧
    ((analyze_dataset fullCoverageExample).standard_columns.time = some "TIME") ∧
    (missingInfo fullCoverageExample "BIT_DEPTH").non_null_rate = 1 ∧
    (missingInfo fullCoverageExample "ROP").non_null_rate = 1 ∧
    (missingInfo fullCoverageExample "VIBRATION_0_5").non_null_rate = 1 ∧
    (missingInfo fullCoverageExample "TIME").non_null_rate = 1 ∧
    (analyze_dataset fullCoverageExample).fully_empty_rows = 0 ∧
    (analyze_dataset fullCoverageExample).depth_negative = 0 ∧
    (analyze_dataset fullCoverageExample).fit_score = 80 := by
  have hrate : ∀ c : String, missingCount fullCoverageExample c = 0 →
      (missingInfo fullCoverageExample c).non_null_rate = 1 := by
    intro c hc
    have hrc : rowCount fullCoverageExample = 1 := rfl
    simp [missingInfo, hrc, hc]
  have hd : (analyze_dataset fullCoverageExample).standard_columns.depth =
      some "BIT_DEPTH" := by decide
  have hr : (analyze_dataset fullCoverageExample).standard_columns.rop =
      some "ROP" := by decide
  have hv : (analyze_dataset fullCoverageExample).standard_columns.vibration =
      some "VIBRATION_0_5" := by decide
  have ht : (analyze_dataset fullCoverageExample).standard_columns.time =
      some "TIME" := by decide
  have h1 := hrate "BIT_DEPTH" rfl
  have h2 := hrate "ROP" rfl
  have h3 := hrate "VIBRATION_0_5" rfl
  have h4 := hrate "TIME" rfl
  have h5 : (analyze_dataset fullCoverageExample).fully_empty_rows = 0 := rfl
  have h6 : (analyze_dataset fullCoverageExample).depth_negative = 0 := by decide
  exact ⟨hd, hr, hv, ht, h1, h2, h3, h4, h5, h6,
    claim_C8_full_coverage_score_80 fullCoverageExample
      "BIT_DEPTH" "ROP" "VIBRATION_0_5" "TIME"
      hd hr hv ht h1 h2 h3 h4 h5 h6⟩
